import Mathlib

/-!
# Verification of the `tfconfig` IAM resource model

Shallow embedding of `deploy/config/tfconfig/iam.go`: the two resource kinds
`ProjectIAMMembers` and `ServiceAccount`, their `Init` / `ID` / `ResourceType`
operations, and the aggregate `MarshalJSON` / `UnmarshalJSON` transform.

Go methods that may write to their receiver are embedded as explicit state
passing: they return the (possibly updated) receiver together with the result,
and an error return is an `Option String` carrying the formatted message.
The Go `map[string]*ProjectIAMMember` built by `MarshalJSON` is embedded as an
association list with replace-on-collision insertion, which matches the map's
observable behaviour (entry count and per-key lookup); Go map iteration order
is unspecified, and nothing below depends on the entry order of the list.
-/

namespace Tfconfig

/-- One Terraform project IAM member, `ProjectIAMMember` in the source.
The `ForEach` field of the Go struct is only ever populated on the single
aggregate wrapper built by `MarshalJSON` (the source comments say the fields
beyond `Role`/`Member` must not be set by users), so the wrapper is embedded
as the separate `MarshaledProjectIAMMember` below and plain members keep the
remaining fields. -/
structure ProjectIAMMember where
  Role : String
  Member : String
  Project : String := ""
  DependsOn : List String := []
deriving DecidableEq, Repr

/-- `ProjectIAMMembers`: the aggregate of members, its dependency list, and
the unexported `project` field set by `Init`. -/
structure ProjectIAMMembers where
  Members : List ProjectIAMMember
  DependsOn : List String
  project : String := ""
deriving DecidableEq, Repr

/-- The key under which a member is stored in the `for_each` map:
`fmt.Sprintf("%s %s", m.Role, m.Member)`. -/
def forEachKey (m : ProjectIAMMember) : String :=
  m.Role ++ " " ++ m.Member

/-- One Go map assignment `forEach[key] = m`: replace the entry bound to the
key when present, otherwise add a new entry. -/
def forEachInsert (fe : List (String × ProjectIAMMember)) (k : String)
    (v : ProjectIAMMember) : List (String × ProjectIAMMember) :=
  if fe.any (fun p => p.1 == k) then
    fe.map (fun p => if p.1 == k then (k, v) else p)
  else
    fe ++ [(k, v)]

/-- The loop of `MarshalJSON` building the `for_each` map from the member
list: `for _, m := range ms.Members { forEach[key] = m }`. -/
def buildForEach (members : List ProjectIAMMember) :
    List (String × ProjectIAMMember) :=
  members.foldl (fun fe m => forEachInsert fe (forEachKey m) m) []

/-- Lookup in the embedded `for_each` map. -/
def forEachLookup (fe : List (String × ProjectIAMMember)) (k : String) :
    Option ProjectIAMMember :=
  (fe.find? (fun p => p.1 == k)).map Prod.snd

/-- The single aggregate member value that `MarshalJSON` serializes: the
`&ProjectIAMMember{ForEach: ..., Project: ..., Role: ..., Member: ...,
DependsOn: ...}` literal of the source, with its `ForEach` map embedded as an
association list. -/
structure MarshaledProjectIAMMember where
  Role : String
  Member : String
  ForEach : List (String × ProjectIAMMember)
  Project : String
  DependsOn : List String
deriving DecidableEq, Repr

/-- `ProjectIAMMembers.Init`: records the project and always succeeds. -/
def ProjectIAMMembers.Init (ms : ProjectIAMMembers) (projectID : String) :
    ProjectIAMMembers × Option String :=
  ({ ms with project := projectID }, none)

/-- `ProjectIAMMembers.ID`: hardcoded to `"project"`. -/
def ProjectIAMMembers.ID (ms : ProjectIAMMembers) : String :=
  "project"

/-- `ProjectIAMMembers.ResourceType`. -/
def ProjectIAMMembers.ResourceType (ms : ProjectIAMMembers) : String :=
  "google_project_iam_member"

/-- `ProjectIAMMembers.MarshalJSON` as a state transformer: it reads the
receiver, builds the `for_each` map and returns the aggregate wrapper value
that is handed to `json.Marshal`; the receiver is returned unchanged because
the Go body never assigns to it. -/
def ProjectIAMMembers.MarshalJSON (ms : ProjectIAMMembers) :
    ProjectIAMMembers × MarshaledProjectIAMMember :=
  (ms,
    { ForEach := buildForEach ms.Members
      Project := ms.project
      Role := "$\x7beach.value.role\x7d"
      Member := "$\x7beach.value.member\x7d"
      DependsOn := ms.DependsOn })

/-- `ServiceAccount`. -/
structure ServiceAccount where
  AccountID : String
  Project : String := ""
  DisplayName : String := ""
deriving DecidableEq, Repr

/-- `ServiceAccount.Init`: fails (receiver untouched) when `Project` is
already non-empty, with the `fmt.Errorf("project must not be set: %v", ...)`
message; otherwise records the project. -/
def ServiceAccount.Init (a : ServiceAccount) (projectID : String) :
    ServiceAccount × Option String :=
  if a.Project ≠ "" then
    (a, some ("project must not be set: " ++ a.Project))
  else
    ({ a with Project := projectID }, none)

/-- `ServiceAccount.ID`: returns the account id. -/
def ServiceAccount.ID (a : ServiceAccount) : String :=
  a.AccountID

/-- `ServiceAccount.ResourceType`. -/
def ServiceAccount.ResourceType (a : ServiceAccount) : String :=
  "google_service_account"

/-- Any finite sequence of `Init` calls on a `ServiceAccount`, each applied to
the state left by the previous one (a failed call leaves the state as is). -/
def ServiceAccount.runInits (a : ServiceAccount) : List String → ServiceAccount
  | [] => a
  | pid :: rest => ((a.Init pid).1).runInits rest

/-! ## Byte-level JSON form

`MarshalJSON` in the source hands the aggregate wrapper to `json.Marshal`,
and `UnmarshalJSON` is `json.Unmarshal(b, &ms.Members)`.  The JSON text is
embedded as a small value AST plus a compact renderer; `encoding/json`
renders struct fields in declaration order, drops `omitempty` fields that
hold zero values, and renders a map with its keys in sorted order. -/

/-- JSON values (the fragment the wire format uses). -/
inductive Json where
  | null : Json
  | str : String → Json
  | arr : List Json → Json
  | obj : List (String × Json) → Json

mutual

/-- Compact rendering of a JSON value, as `encoding/json` produces it. -/
def Json.encode : Json → String
  | .null => "null"
  | .str s => "\"" ++ s ++ "\""
  | .arr elems => "[" ++ Json.encodeElems elems ++ "]"
  | .obj fields => "\x7b" ++ Json.encodeFields fields ++ "\x7d"

/-- Comma-separated rendering of array elements. -/
def Json.encodeElems : List Json → String
  | [] => ""
  | [j] => Json.encode j
  | j :: rest => Json.encode j ++ "," ++ Json.encodeElems rest

/-- Comma-separated rendering of object fields. -/
def Json.encodeFields : List (String × Json) → String
  | [] => ""
  | [(k, j)] => "\"" ++ k ++ "\":" ++ Json.encode j
  | (k, j) :: rest =>
    "\"" ++ k ++ "\":" ++ Json.encode j ++ "," ++ Json.encodeFields rest

end

/-- JSON object for one plain member: fields in the struct's declaration
order (`role`, `member`, then the `omitempty` tail); a plain member never
carries a `for_each` map (see `ProjectIAMMember`). -/
def ProjectIAMMember.toJson (m : ProjectIAMMember) : Json :=
  .obj ([("role", Json.str m.Role), ("member", Json.str m.Member)]
    ++ (if m.Project = "" then [] else [("project", Json.str m.Project)])
    ++ (if m.DependsOn.isEmpty then [] else
          [("depends_on", Json.arr (m.DependsOn.map Json.str))]))

/-- JSON object for the `for_each` map, keys in sorted order as
`encoding/json` renders Go maps. -/
def forEachToJson (fe : List (String × ProjectIAMMember)) : Json :=
  .obj (((fe.map (fun p => (p.1, p.2.toJson))).mergeSort
    (fun p q => decide (p.1 ≤ q.1))))

/-- JSON object for the aggregate wrapper: field order `role`, `member`,
`for_each`, `project`, `depends_on` per the struct declaration, applying
`omitempty` to the last three. -/
def MarshaledProjectIAMMember.toJson (w : MarshaledProjectIAMMember) : Json :=
  .obj ([("role", Json.str w.Role), ("member", Json.str w.Member)]
    ++ (if w.ForEach.isEmpty then [] else [("for_each", forEachToJson w.ForEach)])
    ++ (if w.Project = "" then [] else [("project", Json.str w.Project)])
    ++ (if w.DependsOn.isEmpty then [] else
          [("depends_on", Json.arr (w.DependsOn.map Json.str))]))

/-- `MarshalJSON` down to the serialized text. -/
def ProjectIAMMembers.marshalJSONText (ms : ProjectIAMMembers) : String :=
  Json.encode ((ms.MarshalJSON).2.toJson)

/-- Value of a field of a JSON object. -/
def jsonField (fields : List (String × Json)) (k : String) : Option Json :=
  (fields.find? (fun p => p.1 == k)).map Prod.snd

/-- String value of a field, `""` (the Go zero value) when absent. -/
def jsonStrField (fields : List (String × Json)) (k : String) : String :=
  match jsonField fields k with
  | some (.str s) => s
  | _ => ""

/-- String-list value of a field, `[]` when absent. -/
def jsonStrListField (fields : List (String × Json)) (k : String) :
    List String :=
  match jsonField fields k with
  | some (.arr elems) =>
    elems.filterMap (fun j => match j with | .str s => some s | _ => none)
  | _ => []

/-- `json.Unmarshal` of one list element into a `*ProjectIAMMember`: an
object fills the known fields (missing ones keep their zero values), `null`
decodes to a nil pointer, i.e. a zero member; anything else is rejected. -/
def decodeMember : Json → Option ProjectIAMMember
  | .obj fields =>
    some
      { Role := jsonStrField fields "role"
        Member := jsonStrField fields "member"
        Project := jsonStrField fields "project"
        DependsOn := jsonStrListField fields "depends_on" }
  | .null => some { Role := "", Member := "" }
  | _ => none

/-- `ProjectIAMMembers.UnmarshalJSON`: `json.Unmarshal(b, &ms.Members)`
decodes a flat JSON list into `Members` (JSON `null` leaves a nil slice) and
touches nothing else; any other shape is a decode error (`none`). -/
def ProjectIAMMembers.UnmarshalJSON (ms : ProjectIAMMembers) :
    Json → Option ProjectIAMMembers
  | .null => some { ms with Members := [] }
  | .arr elems =>
    (elems.mapM decodeMember).map (fun l => { ms with Members := l })
  | _ => none

/-! ## Properties of the `for_each` map construction -/

theorem forEachInsert_of_not_mem {fe : List (String × ProjectIAMMember)}
    {k : String} (v : ProjectIAMMember) (h : ∀ p ∈ fe, p.1 ≠ k) :
    forEachInsert fe k v = fe ++ [(k, v)] := by
  have hany : fe.any (fun p => p.1 == k) = false := by
    simp only [List.any_eq_false, beq_iff_eq]
    exact h
  simp [forEachInsert, hany]

theorem length_forEachInsert_le (fe : List (String × ProjectIAMMember))
    (k : String) (v : ProjectIAMMember) :
    (forEachInsert fe k v).length ≤ fe.length + 1 := by
  unfold forEachInsert
  split
  · simp
  · simp

theorem length_forEachInsert_of_mem {fe : List (String × ProjectIAMMember)}
    {k : String} (v : ProjectIAMMember) (h : ∃ p ∈ fe, p.1 = k) :
    (forEachInsert fe k v).length = fe.length := by
  have hany : fe.any (fun p => p.1 == k) = true := by
    simp only [List.any_eq_true, beq_iff_eq]
    exact h
  simp [forEachInsert, hany]

theorem find?_key_eq_none {fe : List (String × ProjectIAMMember)} {k : String}
    (h : ∀ p ∈ fe, p.1 ≠ k) : fe.find? (fun p => p.1 == k) = none :=
  List.find?_eq_none.mpr fun p hp => by simpa using h p hp

theorem find?_replace_self (fe : List (String × ProjectIAMMember))
    (k : String) (v : ProjectIAMMember)
    (h : fe.any (fun p => p.1 == k) = true) :
    (fe.map (fun p => if p.1 == k then (k, v) else p)).find?
      (fun p => p.1 == k) = some (k, v) := by
  induction fe with
  | nil => simp at h
  | cons p fe ih =>
    rw [List.map_cons]
    by_cases hp : p.1 = k
    · have hif : (if p.1 == k then (k, v) else p) = (k, v) := by simp [hp]
      rw [hif, List.find?_cons_of_pos _ (by simp)]
    · have hp' : (p.1 == k) = false := by simpa using hp
      have hif : (if p.1 == k then (k, v) else p) = p := by simp [hp']
      rw [List.any_cons, hp', Bool.false_or] at h
      rw [hif, List.find?_cons_of_neg _ (by simp [hp'])]
      exact ih h

theorem find?_replace_ne (fe : List (String × ProjectIAMMember))
    (k : String) (v : ProjectIAMMember) {k' : String} (h : k' ≠ k) :
    (fe.map (fun p => if p.1 == k then (k, v) else p)).find?
      (fun p => p.1 == k') = fe.find? (fun p => p.1 == k') := by
  induction fe with
  | nil => rfl
  | cons p fe ih =>
    rw [List.map_cons]
    by_cases hp : p.1 = k
    · have hif : (if p.1 == k then (k, v) else p) = (k, v) := by simp [hp]
      rw [hif, List.find?_cons_of_neg _ (by simpa using Ne.symm h),
        List.find?_cons_of_neg _ (by simpa [hp] using Ne.symm h)]
      exact ih
    · have hif : (if p.1 == k then (k, v) else p) = p := by simp [hp]
      rw [hif]
      by_cases hq : p.1 = k'
      · rw [List.find?_cons_of_pos _ (by simp [hq]),
          List.find?_cons_of_pos _ (by simp [hq])]
      · rw [List.find?_cons_of_neg _ (by simp [hq]),
          List.find?_cons_of_neg _ (by simp [hq])]
        exact ih

theorem forEachLookup_insert_self (fe : List (String × ProjectIAMMember))
    (k : String) (v : ProjectIAMMember) :
    forEachLookup (forEachInsert fe k v) k = some v := by
  unfold forEachInsert
  split
  case isTrue h =>
    rw [forEachLookup, find?_replace_self fe k v h]
    rfl
  case isFalse h =>
    have hfalse : fe.any (fun p => p.1 == k) = false := Bool.eq_false_iff.mpr h
    have hne : ∀ p ∈ fe, p.1 ≠ k := by
      simpa only [List.any_eq_false, beq_iff_eq] using hfalse
    rw [forEachLookup, List.find?_append, find?_key_eq_none hne,
      List.find?_cons_of_pos _ (by simp)]
    rfl

theorem forEachLookup_insert_ne (fe : List (String × ProjectIAMMember))
    (k : String) (v : ProjectIAMMember) {k' : String} (h : k' ≠ k) :
    forEachLookup (forEachInsert fe k v) k' = forEachLookup fe k' := by
  unfold forEachInsert
  split
  case isTrue _ =>
    rw [forEachLookup, find?_replace_ne fe k v h]
    rfl
  case isFalse _ =>
    rw [forEachLookup, List.find?_append,
      List.find?_cons_of_neg _ (by simpa using Ne.symm h)]
    simp [forEachLookup, List.find?]

theorem foldl_forEach_eq_append (members : List ProjectIAMMember) :
    ∀ acc : List (String × ProjectIAMMember),
      (members.map forEachKey).Nodup →
      (∀ m ∈ members, ∀ p ∈ acc, p.1 ≠ forEachKey m) →
      members.foldl (fun fe m => forEachInsert fe (forEachKey m) m) acc =
        acc ++ members.map (fun m => (forEachKey m, m)) := by
  induction members with
  | nil => intro acc _ _; simp
  | cons m rest ih =>
    intro acc hnd hfresh
    rw [List.map_cons, List.nodup_cons] at hnd
    rw [List.foldl_cons,
      forEachInsert_of_not_mem m (fun p hp => hfresh m (List.mem_cons_self m rest) p hp)]
    rw [ih (acc ++ [(forEachKey m, m)]) hnd.2 ?fresh]
    · simp
    case fresh =>
      intro m' hm' p hp
      rcases List.mem_append.mp hp with hpl | hpr
      · exact hfresh m' (List.mem_cons_of_mem _ hm') p hpl
      · have hpe : p = (forEachKey m, m) := by simpa using hpr
        rw [hpe]
        intro he
        have he' : forEachKey m = forEachKey m' := he
        exact hnd.1 (he' ▸ List.mem_map_of_mem forEachKey hm')

theorem buildForEach_eq_of_nodup_keys {members : List ProjectIAMMember}
    (h : (members.map forEachKey).Nodup) :
    buildForEach members = members.map (fun m => (forEachKey m, m)) := by
  have := foldl_forEach_eq_append members [] h (by simp)
  simpa [buildForEach] using this

theorem getLast?_cons_or {α : Type} (a : α) (l : List α) :
    (a :: l).getLast? = l.getLast?.or (some a) := by
  induction l generalizing a with
  | nil => rfl
  | cons b t ih =>
    rw [List.getLast?_cons_cons, ih b]
    cases t.getLast? <;> rfl

theorem forEachLookup_foldl (members : List ProjectIAMMember) :
    ∀ (acc : List (String × ProjectIAMMember)) (k : String),
      forEachLookup
        (members.foldl (fun fe m => forEachInsert fe (forEachKey m) m) acc) k =
        ((members.filter (fun m => forEachKey m == k)).getLast?).or
          (forEachLookup acc k) := by
  induction members with
  | nil => intro acc k; simp
  | cons m rest ih =>
    intro acc k
    rw [List.foldl_cons, ih]
    by_cases hk : forEachKey m = k
    · subst hk
      rw [List.filter_cons_of_pos (by simp), forEachLookup_insert_self,
        getLast?_cons_or]
      cases (rest.filter (fun x => forEachKey x == forEachKey m)).getLast? <;> rfl
    · rw [List.filter_cons_of_neg (by simpa using hk),
        forEachLookup_insert_ne acc (forEachKey m) m (fun he => hk he.symm)]

theorem forEachLookup_buildForEach (members : List ProjectIAMMember)
    (k : String) :
    forEachLookup (buildForEach members) k =
      (members.filter (fun m => forEachKey m == k)).getLast? := by
  have := forEachLookup_foldl members [] k
  simpa [buildForEach, forEachLookup] using this

theorem length_foldl_forEach_le (members : List ProjectIAMMember) :
    ∀ acc : List (String × ProjectIAMMember),
      (members.foldl (fun fe m => forEachInsert fe (forEachKey m) m) acc).length ≤
        acc.length + members.length := by
  induction members with
  | nil => intro acc; simp
  | cons m rest ih =>
    intro acc
    rw [List.foldl_cons]
    have h1 := ih (forEachInsert acc (forEachKey m) m)
    have h2 := length_forEachInsert_le acc (forEachKey m) m
    simp only [List.length_cons]
    omega

theorem length_foldl_forEach_lt (members : List ProjectIAMMember) :
    ∀ acc : List (String × ProjectIAMMember),
      (¬ (members.map forEachKey).Nodup ∨
        ∃ m ∈ members, ∃ p ∈ acc, p.1 = forEachKey m) →
      (members.foldl (fun fe m => forEachInsert fe (forEachKey m) m) acc).length <
        acc.length + members.length := by
  induction members with
  | nil =>
    intro acc h
    rcases h with h | ⟨m, hm, _⟩
    · simp at h
    · cases hm
  | cons m rest ih =>
    intro acc h
    rw [List.foldl_cons]
    by_cases hmem : ∃ p ∈ acc, p.1 = forEachKey m
    · have hlen : (forEachInsert acc (forEachKey m) m).length = acc.length :=
        length_forEachInsert_of_mem m hmem
      have := length_foldl_forEach_le rest (forEachInsert acc (forEachKey m) m)
      simp only [List.length_cons]
      omega
    · have hnotmem : ∀ p ∈ acc, p.1 ≠ forEachKey m :=
        fun p hp he => hmem ⟨p, hp, he⟩
      rw [forEachInsert_of_not_mem m hnotmem]
      have hrec : ¬ (rest.map forEachKey).Nodup ∨
          ∃ m' ∈ rest, ∃ p ∈ acc ++ [(forEachKey m, m)], p.1 = forEachKey m' := by
        rcases h with h | ⟨m', hm', p, hp, hpe⟩
        · rw [List.map_cons, List.nodup_cons] at h
          by_cases hk : forEachKey m ∈ rest.map forEachKey
          · rcases List.mem_map.mp hk with ⟨m', hm', he⟩
            exact Or.inr ⟨m', hm', (forEachKey m, m), by simp, he.symm⟩
          · exact Or.inl fun hnd => h ⟨hk, hnd⟩
        · rcases List.mem_cons.mp hm' with rfl | hm'r
          · exact absurd ⟨p, hp, hpe⟩ hmem
          · exact Or.inr ⟨m', hm'r, p, List.mem_append_left _ hp, hpe⟩
      have := ih (acc ++ [(forEachKey m, m)]) hrec
      simp only [List.length_append, List.length_cons, List.length_nil] at this ⊢
      omega

theorem length_buildForEach_lt {members : List ProjectIAMMember}
    (h : ¬ (members.map forEachKey).Nodup) :
    (buildForEach members).length < members.length := by
  have := length_foldl_forEach_lt members [] (Or.inl h)
  simpa [buildForEach] using this

theorem filter_key_eq_singleton {members : List ProjectIAMMember}
    {m : ProjectIAMMember} (hnd : (members.map forEachKey).Nodup)
    (hm : m ∈ members) :
    members.filter (fun x => forEachKey x == forEachKey m) = [m] := by
  induction members with
  | nil => cases hm
  | cons a rest ih =>
    rw [List.map_cons, List.nodup_cons] at hnd
    rcases List.mem_cons.mp hm with rfl | hm'
    · rw [List.filter_cons_of_pos (by simp)]
      have hrest : rest.filter (fun x => forEachKey x == forEachKey m) = [] := by
        rw [List.filter_eq_nil_iff]
        intro x hx
        simp only [beq_iff_eq]
        intro hkey
        exact hnd.1 (hkey ▸ List.mem_map_of_mem forEachKey hx)
      rw [hrest]
    · have hne : forEachKey a ≠ forEachKey m := by
        intro he
        exact hnd.1 (he ▸ List.mem_map_of_mem forEachKey hm')
      rw [List.filter_cons_of_neg (by simpa using hne)]
      exact ih hnd.2 hm'

theorem not_nodup_keys_of_not_nodup_pairs {members : List ProjectIAMMember}
    (h : ¬ (members.map (fun m => (m.Role, m.Member))).Nodup) :
    ¬ (members.map forEachKey).Nodup := by
  intro hk
  apply h
  have hmap : members.map forEachKey =
      (members.map (fun m => (m.Role, m.Member))).map
        (fun pr => pr.1 ++ " " ++ pr.2) := by
    rw [List.map_map]
    rfl
  rw [hmap] at hk
  exact hk.of_map _

theorem brace_append_ne_bracket_append (a b : String) :
    ("\x7b" ++ a) ≠ ("[" ++ b) := by
  intro h
  have hd := congrArg String.data h
  rw [String.data_append, String.data_append] at hd
  have h1 : ("\x7b" : String).data = ['\x7b'] := rfl
  have h2 : ("[" : String).data = ['['] := rfl
  rw [h1, h2, List.singleton_append, List.singleton_append] at hd
  exact absurd (List.cons.inj hd).1 (by decide)

theorem encode_obj_eq (fields : List (String × Json)) :
    Json.encode (.obj fields) = "\x7b" ++ (Json.encodeFields fields ++ "\x7d") := by
  rw [Json.encode, String.append_assoc]

theorem encode_arr_eq (elems : List Json) :
    Json.encode (.arr elems) = "[" ++ (Json.encodeElems elems ++ "]") := by
  rw [Json.encode, String.append_assoc]

/-! ## Claims -/

/-- Claim C1 as stated is false: distinctness of the (role, member) pairs
does not make the space-joined keys distinct.  The two members
`(role "a", member "b c")` and `(role "a b", member "c")` are distinct pairs
but share the key `"a b c"`, so `MarshalJSON` produces one `for_each` entry,
not two. -/
theorem iam_C1_cex :
    (([⟨"a", "b c", "", []⟩, ⟨"a b", "c", "", []⟩] :
        List ProjectIAMMember).map (fun m => (m.Role, m.Member))).Nodup ∧
    ((((⟨[⟨"a", "b c", "", []⟩, ⟨"a b", "c", "", []⟩], [], "p"⟩ :
        ProjectIAMMembers).MarshalJSON).2.ForEach).length ≠ 2) := by
  decide

/-- Claim C1 (amended): for every `ProjectIAMMembers` whose member list is
non-empty and whose derived keys `"<role> <member>"` are pairwise distinct,
`MarshalJSON` produces a `for_each` map with exactly one entry per member,
and each member `m` is stored under the key `forEachKey m`. -/
theorem iam_C1 (ms : ProjectIAMMembers) (hne : ms.Members ≠ [])
    (hnd : (ms.Members.map forEachKey).Nodup) :
    ((ms.MarshalJSON).2.ForEach).length = ms.Members.length ∧
    ∀ m ∈ ms.Members,
      forEachLookup ((ms.MarshalJSON).2.ForEach) (forEachKey m) = some m := by
  constructor
  · show (buildForEach ms.Members).length = ms.Members.length
    rw [buildForEach_eq_of_nodup_keys hnd, List.length_map]
  · intro m hm
    show forEachLookup (buildForEach ms.Members) (forEachKey m) = some m
    rw [forEachLookup_buildForEach, filter_key_eq_singleton hnd hm]
    rfl

/-- Witness for C1 (amended) at a concrete two-member aggregate. -/
theorem iam_C1_witness :
    ((((⟨[⟨"roles/owner", "user:x@y.z", "", []⟩,
          ⟨"roles/editor", "group:g@y.z", "", []⟩], [], "p"⟩ :
        ProjectIAMMembers).MarshalJSON).2.ForEach).length = 2) ∧
    forEachLookup (((⟨[⟨"roles/owner", "user:x@y.z", "", []⟩,
          ⟨"roles/editor", "group:g@y.z", "", []⟩], [], "p"⟩ :
        ProjectIAMMembers).MarshalJSON).2.ForEach)
      (forEachKey ⟨"roles/owner", "user:x@y.z", "", []⟩) =
      some ⟨"roles/owner", "user:x@y.z", "", []⟩ :=
  ⟨(iam_C1 _ (by decide) (by decide)).1,
    (iam_C1 _ (by decide) (by decide)).2 _ (by decide)⟩

/-- Claim C2 as stated (for every instance) is false: on an instance whose
`Project` is already `"other"`, `Init("p1")` fails and leaves `"other"`, so
the second call's error carries `"other"`, not `"p1"`, and the field never
equals `"p1"`. -/
theorem iam_C2_cex :
    ((((⟨"sa", "other", "dn"⟩ : ServiceAccount).Init "p1").1.Init "p2").2 =
      some "project must not be set: other") ∧
    ((((⟨"sa", "other", "dn"⟩ : ServiceAccount).Init "p1").1.Init "p2").1.Project
      ≠ "p1") := by
  decide

/-- Claim C2 (amended): for every `ServiceAccount` whose `Project` is empty
(so that the first call succeeds), `Init "p1"` then `Init "p2"` makes the
second call fail with the error carrying `"p1"`, leaves `Project = "p1"`,
and the failing call has no side effect on the state. -/
theorem iam_C2 (a : ServiceAccount) (h : a.Project = "") :
    ((a.Init "p1").1).Project = "p1" ∧
    (((a.Init "p1").1).Init "p2").2 = some "project must not be set: p1" ∧
    (((a.Init "p1").1).Init "p2").1 = (a.Init "p1").1 := by
  have h1 : (a.Init "p1").1 = { a with Project := "p1" } := by
    simp [ServiceAccount.Init, h]
  rw [h1]
  refine ⟨rfl, ?_, ?_⟩
  · simp [ServiceAccount.Init]
  · simp [ServiceAccount.Init]

/-- Witness for C2 (amended) at a freshly constructed account. -/
theorem iam_C2_witness :
    ((((⟨"sa", "", "dn"⟩ : ServiceAccount).Init "p1").1).Project = "p1") ∧
    ((((⟨"sa", "", "dn"⟩ : ServiceAccount).Init "p1").1.Init "p2").2 =
      some "project must not be set: p1") ∧
    ((((⟨"sa", "", "dn"⟩ : ServiceAccount).Init "p1").1.Init "p2").1 =
      ((⟨"sa", "", "dn"⟩ : ServiceAccount).Init "p1").1) :=
  iam_C2 ⟨"sa", "", "dn"⟩ rfl

/-- Claim C3: with at least two members sharing the same (role, member)
pair, the `for_each` map has strictly fewer entries than the member list,
and the entry stored under any key is the member with that key occurring
last in list order (last-write-wins). -/
theorem iam_C3 (ms : ProjectIAMMembers) (k : String)
    (hdup : ¬ (ms.Members.map (fun m => (m.Role, m.Member))).Nodup) :
    ((ms.MarshalJSON).2.ForEach).length < ms.Members.length ∧
    forEachLookup ((ms.MarshalJSON).2.ForEach) k =
      (ms.Members.filter (fun m => forEachKey m == k)).getLast? := by
  constructor
  · exact length_buildForEach_lt (not_nodup_keys_of_not_nodup_pairs hdup)
  · exact forEachLookup_buildForEach ms.Members k

/-- Witness for C3: two members with the same pair but distinct payloads;
one entry remains and it is the later member. -/
theorem iam_C3_witness :
    ((((⟨[⟨"r", "m", "p1", []⟩, ⟨"r", "m", "p2", []⟩], [], ""⟩ :
        ProjectIAMMembers).MarshalJSON).2.ForEach).length <
      ([⟨"r", "m", "p1", []⟩, ⟨"r", "m", "p2", []⟩] :
        List ProjectIAMMember).length) ∧
    forEachLookup (((⟨[⟨"r", "m", "p1", []⟩, ⟨"r", "m", "p2", []⟩], [], ""⟩ :
        ProjectIAMMembers).MarshalJSON).2.ForEach) "r m" =
      (([⟨"r", "m", "p1", []⟩, ⟨"r", "m", "p2", []⟩] :
        List ProjectIAMMember).filter (fun m => forEachKey m == "r m")).getLast? :=
  iam_C3 ⟨[⟨"r", "m", "p1", []⟩, ⟨"r", "m", "p2", []⟩], [], ""⟩ "r m" (by decide)

/-- Claim C4: the concrete two-member example.  After `Init "proj1"`,
`MarshalJSON` yields the wrapper with `project = "proj1"`, the placeholder
`role`/`member` expressions, and a `for_each` map whose keys are exactly the
two space-joined keys. -/
theorem iam_C4 :
    ((ProjectIAMMembers.MarshalJSON
        (ProjectIAMMembers.Init
          ⟨[⟨"roles/viewer", "user:a@x.com", "", []⟩,
            ⟨"roles/editor", "user:b@x.com", "", []⟩], [], ""⟩ "proj1").1).2 =
      { Role := "$\x7beach.value.role\x7d"
        Member := "$\x7beach.value.member\x7d"
        ForEach :=
          [("roles/viewer user:a@x.com", ⟨"roles/viewer", "user:a@x.com", "", []⟩),
           ("roles/editor user:b@x.com", ⟨"roles/editor", "user:b@x.com", "", []⟩)]
        Project := "proj1"
        DependsOn := [] }) ∧
    (((ProjectIAMMembers.MarshalJSON
        (ProjectIAMMembers.Init
          ⟨[⟨"roles/viewer", "user:a@x.com", "", []⟩,
            ⟨"roles/editor", "user:b@x.com", "", []⟩], [], ""⟩ "proj1").1).2.ForEach).map
        Prod.fst =
      ["roles/viewer user:a@x.com", "roles/editor user:b@x.com"]) := by
  decide

/-- Claim C5: decoding a JSON value into a `ProjectIAMMembers` and
re-serializing is never the identity on the serialized text when the decoded
member list is non-empty: `UnmarshalJSON` accepts a flat list (a JSON array)
while `MarshalJSON` emits a single aggregated object, so the shapes differ
from the first byte on. -/
theorem iam_C5 (ms ms' : ProjectIAMMembers) (j : Json)
    (hdec : ms.UnmarshalJSON j = some ms') (hne : ms'.Members ≠ []) :
    ms'.marshalJSONText ≠ Json.encode j := by
  cases j with
  | null =>
    exfalso
    have h1 : ms.UnmarshalJSON Json.null = some { ms with Members := [] } := rfl
    rw [h1] at hdec
    have h2 := Option.some.inj hdec
    exact hne ((congrArg ProjectIAMMembers.Members h2).symm)
  | str s =>
    exfalso
    have h1 : (none : Option ProjectIAMMembers) = some ms' := hdec
    exact Option.noConfusion h1
  | obj fields =>
    exfalso
    have h1 : (none : Option ProjectIAMMembers) = some ms' := hdec
    exact Option.noConfusion h1
  | arr elems =>
    unfold ProjectIAMMembers.marshalJSONText MarshaledProjectIAMMember.toJson
    rw [encode_obj_eq, encode_arr_eq]
    exact brace_append_ne_bracket_append _ _

/-- Witness for C5 at a one-element JSON list. -/
theorem iam_C5_witness :
    (⟨[⟨"roles/viewer", "user:a@x.com", "", []⟩], [], ""⟩ :
        ProjectIAMMembers).marshalJSONText ≠
      Json.encode (Json.arr [Json.obj
        [("role", Json.str "roles/viewer"),
         ("member", Json.str "user:a@x.com")]]) :=
  iam_C5 ⟨[], [], ""⟩ _ _ (by decide) (by decide)

/-- Claim C6 as stated is false for `ProjectIAMMembers`: its `Init` never
fails and simply overwrites the bound project, so an initialized aggregate
(bound to `"p1"`) is rebound to `"p2"` by a successful second `Init`. -/
theorem iam_C6_cex :
    ((⟨[], [], "p1"⟩ : ProjectIAMMembers).Init "p2").2 = none ∧
    ((⟨[], [], "p1"⟩ : ProjectIAMMembers).Init "p2").1.project = "p2" := by
  decide

/-- Claim C6 (amended): the one-way initialized state holds for
`ServiceAccount` only: once its `Project` is non-empty, every further
sequence of `Init` calls fails call-by-call and leaves the whole state
unchanged (`ProjectIAMMembers.Init` instead rebinds, see the
counterexample). -/
theorem iam_C6 (a : ServiceAccount) (pids : List String)
    (h : a.Project ≠ "") : a.runInits pids = a := by
  induction pids with
  | nil => rfl
  | cons pid rest ih =>
    have hstep : (a.Init pid).1 = a := by
      simp [ServiceAccount.Init, h]
    show ((a.Init pid).1).runInits rest = a
    rw [hstep]
    exact ih

/-- Witness for C6 (amended): a bound account survives two more `Init`s. -/
theorem iam_C6_witness :
    (⟨"sa", "p1", "dn"⟩ : ServiceAccount).runInits ["p2", "p3"] =
      ⟨"sa", "p1", "dn"⟩ :=
  iam_C6 ⟨"sa", "p1", "dn"⟩ ["p2", "p3"] (by decide)

/-- Claim C7: `ProjectIAMMembers.ID` always returns the literal
`"project"`, and `Init` always succeeds, recording the project id. -/
theorem iam_C7 (ms : ProjectIAMMembers) (projectID : String) :
    ms.ID = "project" ∧
    ms.Init projectID = ({ ms with project := projectID }, none) :=
  ⟨rfl, rfl⟩

/-- Claim C8: both `ResourceType` methods return fixed literals independent
of the instance. -/
theorem iam_C8 (a : ServiceAccount) (ms : ProjectIAMMembers) :
    a.ResourceType = "google_service_account" ∧
    ms.ResourceType = "google_project_iam_member" :=
  ⟨rfl, rfl⟩

/-- Claim C9: `ServiceAccount.Init` fails exactly when `Project` is already
non-empty, regardless of the argument; `Init ""` on a fresh account succeeds
and leaves `Project` empty, so a later `Init` with any project succeeds as
well — the set-once guard is bypassed by the empty string. -/
theorem iam_C9 (a : ServiceAccount) (pid : String)
    (accountID displayName pid2 : String) :
    ((a.Init pid).2 ≠ none ↔ a.Project ≠ "") ∧
    ((⟨accountID, "", displayName⟩ : ServiceAccount).Init "").2 = none ∧
    ((⟨accountID, "", displayName⟩ : ServiceAccount).Init "").1.Project = "" ∧
    ((((⟨accountID, "", displayName⟩ : ServiceAccount).Init "").1).Init pid2).2 =
      none := by
  refine ⟨?_, rfl, rfl, rfl⟩
  by_cases h : a.Project = ""
  · simp [ServiceAccount.Init, h]
  · simp [ServiceAccount.Init, h]

/-- Claim C10: `MarshalJSON` leaves the receiver untouched and is
deterministic: the state it returns is the input state, and re-serializing
that state yields the identical output. -/
theorem iam_C10 (ms : ProjectIAMMembers) :
    (ms.MarshalJSON).1 = ms ∧
    ((ms.MarshalJSON).1).MarshalJSON = ms.MarshalJSON :=
  ⟨rfl, rfl⟩

end Tfconfig
